import Mathlib

/-!
# DNA pattern matching: Naive, Knuth-Morris-Pratt and Boyer-Moore

A shallow embedding of `src/dnaPatternMatching.cpp` and a verification of the
three matchers against the reference notion of an occurrence.

Modelling conventions.

* A `std::string` is a `List Byte` with `Byte = Fin 256`; `(unsigned char)c`
  is the numeric value of the byte.
* A C++ `int` is an `Int`.  `int n = sequence.size()` is taken exactly: the
  development is about strings shorter than `2^31` bytes, for which no index
  expression of the three matchers leaves the `int` range (every index value
  lies between `-1` and `n`).  The one `int` expression that can leave the
  range on such strings is the theoretical cost `n * m` (or `n + m`) handed to
  the printer; it is reduced modulo `2^32` by `wrapInt32`.
* Every subscript is a checked read or write (`getAt`, `setAt`): an index
  outside `0 .. size-1` yields `Res.fault`.
* `for` loops whose counter runs over a fixed range, and the two inner
  comparison loops whose counter walks to a fixed bound, recurse on the number
  of remaining trips.  The three `while` loops whose termination is part of
  what is verified (`computeLPS`, the scan of `kmp`, the scan of `boyer`) take
  a `fuel` argument, the number of loop bodies they may execute; running out
  yields `Res.timeout`.
* `starts` and `ends` are `List Int`, `push_back` appends at the end.
* The body of each scan loop is also given on its own (`kmpStep`, `boyerStep`)
  and shown to be what the loop executes (`kmpLoop_succ`, `boyerLoop_succ`);
  `kmpStateAfter` and `boyerStateAfter` give the loop-head state after a number
  of passes.
* The average durations compared by the reporter are finite `double` values;
  they are elements of an arbitrary linear order.
-/

namespace DnaPatternMatching

/-! ## Data model -/

/-- A symbol of a `std::string`. -/
abbrev Byte := Fin 256

/-- The result of running a piece of the program. -/
inductive Res (α : Type) where
  | done (a : α)
  | fault
  | timeout
  deriving DecidableEq, Repr

/-- The two vectors `starts` and `ends` of a matcher. -/
structure MatchResult where
  starts : List Int
  ends : List Int
  deriving DecidableEq, Repr

/-- The value of `const int NO_OF_CHARS`. -/
def NO_OF_CHARS : Nat := 256

/-- Checked read `xs[i]` with an `int` index. -/
def getAt {α : Type} (xs : List α) (i : Int) : Option α :=
  if 0 ≤ i then xs[i.toNat]? else none

/-- Checked write `xs[i] = v` with an `int` index. -/
def setAt {α : Type} (xs : List α) (i : Int) (v : α) : Option (List α) :=
  if 0 ≤ i ∧ i.toNat < xs.length then some (xs.set i.toNat v) else none

/-- The loop `while (i < n)` of `kmp`; state `i`, `j`, `starts`, `ends`. -/
def kmpLoop (sequence pattern : List Byte) (n m : Int) (lps : List Int) :
    Nat → Int → Int → MatchResult → Res MatchResult
  | 0, i, _, r => if i < n then .timeout else .done r
  | fuel + 1, i, j, r =>
    if i < n then
      match getAt pattern j, getAt sequence i with
      | some a, some b =>
        let i1 := if a = b then i + 1 else i
        let j1 := if a = b then j + 1 else j
        if j1 = m then
          match getAt lps (j1 - 1) with
          | some v =>
            kmpLoop sequence pattern n m lps fuel i1 v ⟨r.starts ++ [i1 - j1], r.ends ++ [i1 - 1]⟩
          | none => .fault
        else if i1 < n then
          match getAt pattern j1, getAt sequence i1 with
          | some a1, some b1 =>
            if a1 ≠ b1 then
              if j1 ≠ 0 then
                match getAt lps (j1 - 1) with
                | some v => kmpLoop sequence pattern n m lps fuel i1 v r
                | none => .fault
              else kmpLoop sequence pattern n m lps fuel (i1 + 1) j1 r
            else kmpLoop sequence pattern n m lps fuel i1 j1 r
          | _, _ => .fault
        else kmpLoop sequence pattern n m lps fuel i1 j1 r
      | _, _ => .fault
    else .done r

/-- The loop `for (int i = 0; i < size; i++) badchar[(unsigned char)pattern[i]] = i;`.
The first argument is the number of remaining trips. -/
def badCharLoop (pattern : List Byte) : Nat → Int → List Int → Res (List Int)
  | 0, _, badchar => .done badchar
  | k + 1, i, badchar =>
    match getAt pattern i with
    | some c =>
      match setAt badchar (c.val : Int) i with
      | some badchar1 => badCharLoop pattern k (i + 1) badchar1
      | none => .fault
    | none => .fault

/-- The function `badCharHeuristic`: `fill_n(badchar, NO_OF_CHARS, -1)`, then the loop. -/
def badCharHeuristic (pattern : List Byte) (size : Int) : Res (List Int) :=
  badCharLoop pattern size.toNat 0 (List.replicate NO_OF_CHARS (-1))

/-- The inner loop `while (j >= 0 && pattern[j] == sequence[s + j]) j--;` of
`boyer`, entered with `j = m - 1`.  The argument is `j + 1`, the number of
remaining trips; the result is the value of `j` after the loop. -/
def boyerInner (sequence pattern : List Byte) (s : Int) : Nat → Res Int
  | 0 => .done (-1)
  | k + 1 =>
    match getAt pattern (k : Int), getAt sequence (s + (k : Int)) with
    | some a, some b => if a = b then boyerInner sequence pattern s k else .done (k : Int)
    | _, _ => .fault

/-- The amount added to `s` by one iteration of the scan of `boyer`, given the
value `j` left by the inner loop (lines 197-203). -/
def boyerShift (sequence : List Byte) (n m : Int) (badchar : List Int) (s j : Int) : Res Int :=
  if j < 0 then
    if s + m < n then
      match getAt sequence (s + m) with
      | some c =>
        match getAt badchar (c.val : Int) with
        | some v => .done (m - v)
        | none => .fault
      | none => .fault
    else .done 1
  else
    match getAt sequence (s + j) with
    | some c =>
      match getAt badchar (c.val : Int) with
      | some v => .done (max 1 (j - v))
      | none => .fault
    | none => .fault

/-- The loop `while (s <= (n - m))` of `boyer`; state `s`, `starts`, `ends`. -/
def boyerLoop (sequence pattern : List Byte) (n m : Int) (badchar : List Int) :
    Nat → Int → MatchResult → Res MatchResult
  | 0, s, r => if s ≤ n - m then .timeout else .done r
  | fuel + 1, s, r =>
    if s ≤ n - m then
      match boyerInner sequence pattern s m.toNat with
      | .done j =>
        match boyerShift sequence n m badchar s j with
        | .done d =>
          if j < 0 then
            boyerLoop sequence pattern n m badchar fuel (s + d)
              ⟨r.starts ++ [s], r.ends ++ [s + m - 1]⟩
          else
            boyerLoop sequence pattern n m badchar fuel (s + d) r
        | .fault => .fault
        | .timeout => .timeout
      | .fault => .fault
      | .timeout => .timeout
    else .done r

/-- The pattern occurs in the sequence at position `p`:
`sequence[p + k] = pattern[k]` for every `k < m`. -/
def occursAt (sequence pattern : List Byte) (p : Nat) : Prop :=
  ∀ k, k < pattern.length → sequence[p + k]? = pattern[k]?

instance (sequence pattern : List Byte) : DecidablePred (occursAt sequence pattern) :=
  fun p => inferInstanceAs
    (Decidable (∀ k, k < pattern.length → sequence[p + k]? = pattern[k]?))

/-- The occurrences at positions below `b`, in ascending order. -/
def occsBelow (sequence pattern : List Byte) (b : Nat) : List Nat :=
  (List.range b).filter (fun p => decide (occursAt sequence pattern p))

/-- The ascending list of all `i` with `0 ≤ i ≤ n - m` at which the pattern occurs. -/
def refStarts (sequence pattern : List Byte) : List Int :=
  (occsBelow sequence pattern (sequence.length - pattern.length + 1)).map (fun (p : Nat) => (p : Int))

/-- The list of the corresponding `i + m - 1`. -/
def refEnds (sequence pattern : List Byte) : List Int :=
  (occsBelow sequence pattern (sequence.length - pattern.length + 1)).map
    (fun (p : Nat) => (p : Int) + (pattern.length : Int) - 1)

/-- The first `k` symbols of the pattern equal the `k` symbols ending just
before position `L`, with `k < L ≤ m`: `pattern[0..k)` is a proper prefix of
`pattern[0..L)` that is also its suffix. -/
def IsBorder (pattern : List Byte) (L k : Nat) : Prop :=
  k < L ∧ L ≤ pattern.length ∧ ∀ t, t < k → pattern[t]? = pattern[L - k + t]?

/-- The entries `lps[0..i)` hold the longest-border lengths of the prefixes
`pattern[0..t]`, `t < i`. -/
def LpsUpTo (pattern : List Byte) (lps : List Int) (i : Nat) : Prop :=
  ∀ t, t < i → ∃ k : Nat, lps[t]? = some (k : Int) ∧ IsBorder pattern (t + 1) k ∧
    ∀ k1, IsBorder pattern (t + 1) k1 → k1 ≤ k

/-- After the first `i` pattern positions have been entered, the table holds
for every symbol its rightmost position among them, or `-1`. -/
def TableOK (pattern : List Byte) (badchar : List Int) (i : Nat) : Prop :=
  badchar.length = NO_OF_CHARS ∧
  ∀ c : Byte, ∃ v : Int, badchar[c.val]? = some v ∧ -1 ≤ v ∧ v < (i : Int) ∧
    (0 ≤ v → pattern[v.toNat]? = some c) ∧
    ∀ k, k < i → pattern[k]? = some c → (k : Int) ≤ v

/-- The pair of vectors holding exactly the occurrences at positions below `b`. -/
def resultUpTo (sequence pattern : List Byte) (b : Nat) : MatchResult :=
  ⟨(occsBelow sequence pattern b).map (fun (p : Nat) => (p : Int)),
   (occsBelow sequence pattern b).map (fun (p : Nat) => (p : Int) + (pattern.length : Int) - 1)⟩

/-- The symbol `A`. -/
def sA : Byte := 65
/-- The symbol `C`. -/
def sC : Byte := 67
/-- The symbol `G`. -/
def sG : Byte := 71
/-- The symbol `T`. -/
def sT : Byte := 84

/-! ## Loop bodies and loop-head states -/

/-- One execution of the body of the loop `while (i < n)` of `kmp`
(lines 146-157): the values of `i`, `j`, `starts`, `ends` after it. -/
def kmpStep (sequence pattern : List Byte) (n m : Int) (lps : List Int)
    (i j : Int) (r : MatchResult) : Res (Int × Int × MatchResult) :=
  match getAt pattern j, getAt sequence i with
  | some a, some b =>
    let i1 := if a = b then i + 1 else i
    let j1 := if a = b then j + 1 else j
    if j1 = m then
      match getAt lps (j1 - 1) with
      | some v => .done (i1, v, ⟨r.starts ++ [i1 - j1], r.ends ++ [i1 - 1]⟩)
      | none => .fault
    else if i1 < n then
      match getAt pattern j1, getAt sequence i1 with
      | some a1, some b1 =>
        if a1 ≠ b1 then
          if j1 ≠ 0 then
            match getAt lps (j1 - 1) with
            | some v => .done (i1, v, r)
            | none => .fault
          else .done (i1 + 1, j1, r)
        else .done (i1, j1, r)
      | _, _ => .fault
    else .done (i1, j1, r)
  | _, _ => .fault

/-- One execution of the body of the loop `while (s <= (n - m))` of `boyer`
(lines 195-203): the values of `s`, `starts`, `ends` after it. -/
def boyerStep (sequence pattern : List Byte) (n m : Int) (badchar : List Int)
    (s : Int) (r : MatchResult) : Res (Int × MatchResult) :=
  match boyerInner sequence pattern s m.toNat with
  | .done j =>
    match boyerShift sequence n m badchar s j with
    | .done d =>
      if j < 0 then .done (s + d, ⟨r.starts ++ [s], r.ends ++ [s + m - 1]⟩)
      else .done (s + d, r)
    | .fault => .fault
    | .timeout => .timeout
  | .fault => .fault
  | .timeout => .timeout

/-- The value of an `int` expression: the representative of `x` modulo `2^32`
in the range `-2^31 .. 2^31 - 1`. -/
def wrapInt32 (x : Int) : Int :=
  (x + 2147483648) % 4294967296 - 2147483648

/-- The argument `n * m` handed to `printResult` by `naive`. -/
def naiveCost (sequence pattern : List Byte) : Int :=
  let n : Int := sequence.length
  let m : Int := pattern.length
  wrapInt32 (n * m)

/-- The argument `n + m` handed to `printResult` by `kmp`. -/
def kmpCost (sequence pattern : List Byte) : Int :=
  let n : Int := sequence.length
  let m : Int := pattern.length
  wrapInt32 (n + m)

/-- The argument `n * m` handed to `printResult` by `boyer`. -/
def boyerCost (sequence pattern : List Byte) : Int :=
  let n : Int := sequence.length
  let m : Int := pattern.length
  wrapInt32 (n * m)

/-! ## The CLI layer (`toUpperCase`, lines 14-18; `isValidDNA`, lines 70-77) -/

/-- The function `::toupper` of the "C" locale on a byte: the letters
`a .. z` go to `A .. Z`, every other byte stays. -/
def toupper (c : Byte) : Byte :=
  if h : 97 ≤ c.val ∧ c.val ≤ 122 then ⟨c.val - 32, by omega⟩ else c

/-- The function `toUpperCase`: `transform` with `::toupper` over the string. -/
def toUpperCase (str : List Byte) : List Byte :=
  str.map toupper

/-- The loop `for (char ch : input)` of `isValidDNA`. -/
def isValidDNALoop : List Byte → Bool
  | [] => true
  | ch :: rest =>
    let ch1 := toupper ch
    if ch1 ≠ sA ∧ ch1 ≠ sT ∧ ch1 ≠ sG ∧ ch1 ≠ sC then false
    else isValidDNALoop rest

/-- The function `isValidDNA`. -/
def isValidDNA (input : List Byte) : Bool :=
  if input.isEmpty then false else isValidDNALoop input

/-! ## The comparison reporter (`applyMultiple`, lines 347-358) -/

/-- The selection of the fastest algorithm in the compare-all branch of
`applyMultiple`: the final values of `fastest` and `fastest_time`.  The three
durations are finite `double` values (a nanosecond count divided by
`REPEAT_COUNT`), on which `<` is a linear order. -/
def fastestOfAll {α : Type} [LinearOrder α] (time_naive time_kmp time_boyer : α) :
    String × α :=
  let s0 : String × α := ("Naive", time_naive)
  let s1 : String × α := if time_kmp < s0.2 then ("KMP", time_kmp) else s0
  let s2 : String × α := if time_boyer < s1.2 then ("Boyer-Moore", time_boyer) else s1
  s2

/-! ## Basic facts about checked access and the timing loop -/

theorem getAt_natCast {α : Type} (xs : List α) (k : Nat) : getAt xs (k : Int) = xs[k]? := by
  simp [getAt]

theorem setAt_natCast {α : Type} (xs : List α) (k : Nat) (v : α) (h : k < xs.length) :
    setAt xs (k : Int) v = some (xs.set k v) := by
  simp [setAt, h]

theorem resultUpTo_ref (sequence pattern : List Byte) :
    resultUpTo sequence pattern (sequence.length - pattern.length + 1) =
      ⟨refStarts sequence pattern, refEnds sequence pattern⟩ := rfl

/-! ## The naive matcher -/

theorem getElem?_some_of_lt {α : Type} (xs : List α) (k : Nat) (h : k < xs.length) :
    ∃ a, xs[k]? = some a :=
  ⟨xs.get ⟨k, h⟩, by simp [List.getElem?_eq_getElem h]⟩

theorem IsBorder.zero (pattern : List Byte) (L : Nat) (h1 : 0 < L) (h2 : L ≤ pattern.length) :
    IsBorder pattern L 0 :=
  ⟨h1, h2, fun t ht => absurd ht (by omega)⟩

theorem LpsUpTo.set {pattern : List Byte} {lps : List Int} {i k : Nat}
    (h : LpsUpTo pattern lps i) (hi : i < lps.length) (hb : IsBorder pattern (i + 1) k)
    (hmax : ∀ k1, IsBorder pattern (i + 1) k1 → k1 ≤ k) :
    LpsUpTo pattern (lps.set i (k : Int)) (i + 1) := by
  intro t ht
  by_cases hti : t = i
  · subst hti
    exact ⟨k, by simp [List.getElem?_set_self, hi], hb, hmax⟩
  · obtain ⟨k0, hk0, hb0, hmax0⟩ := h t (by omega)
    refine ⟨k0, ?_, hb0, hmax0⟩
    rw [List.getElem?_set_ne (by omega)]
    exact hk0

theorem badCharLoop_spec (pattern : List Byte) :
    ∀ (k i : Nat) (badchar : List Int), i + k = pattern.length →
      TableOK pattern badchar i →
      ∃ badchar1, badCharLoop pattern k (i : Int) badchar = .done badchar1 ∧
        TableOK pattern badchar1 pattern.length := by
  intro k
  induction k with
  | zero =>
    intro i badchar hi hok
    have : i = pattern.length := by omega
    subst this
    exact ⟨badchar, rfl, hok⟩
  | succ k ih =>
    intro i badchar hi hok
    obtain ⟨c, hc⟩ := getElem?_some_of_lt pattern i (by omega)
    obtain ⟨hlen, htab⟩ := hok
    have hcl : c.val < badchar.length := by rw [hlen]; exact c.isLt
    have hci : (i : Int) + 1 = ((i + 1 : Nat) : Int) := by push_cast; rfl
    rw [badCharLoop, getAt_natCast, hc]
    simp only []
    rw [setAt_natCast _ _ _ hcl]
    simp only []
    rw [hci]
    apply ih (i + 1) _ (by omega)
    refine ⟨by simp [hlen], ?_⟩
    intro c1
    by_cases hcc : c1 = c
    · subst hcc
      refine ⟨(i : Int), by simp [List.getElem?_set_self, hcl], by omega, by omega, ?_, ?_⟩
      · intro _
        simpa using hc
      · intro k1 hk1 _
        omega
    · obtain ⟨v, hv, hv1, hv2, hv3, hv4⟩ := htab c1
      have hne : c.val ≠ c1.val := fun h => hcc (Fin.ext h.symm)
      refine ⟨v, by rw [List.getElem?_set_ne hne]; exact hv, hv1, by omega, hv3, ?_⟩
      intro k1 hk1 hpk
      by_cases hki : k1 = i
      · subst hki
        rw [hc] at hpk
        exact absurd (Option.some.inj hpk).symm hcc
      · exact hv4 k1 (by omega) hpk

theorem badCharHeuristic_spec (pattern : List Byte) :
    ∃ badchar, badCharHeuristic pattern (pattern.length : Int) = .done badchar ∧
      TableOK pattern badchar pattern.length := by
  unfold badCharHeuristic
  rw [Int.toNat_ofNat]
  have := badCharLoop_spec pattern pattern.length 0 (List.replicate NO_OF_CHARS (-1))
    (by omega)
    ⟨List.length_replicate _ _, fun c => ⟨-1, by
      rw [List.getElem?_replicate]
      exact if_pos (show c.val < NO_OF_CHARS from c.isLt), by omega, by omega,
      fun h => absurd h (by omega), fun k hk => absurd hk (by omega)⟩⟩
  exact this

theorem wrapInt32_of_range (x : Int) (h1 : -2147483648 ≤ x) (h2 : x < 2147483648) :
    wrapInt32 x = x := by
  unfold wrapInt32
  omega

theorem toupper_val (c : Byte) :
    (toupper c).val = if 97 ≤ c.val ∧ c.val ≤ 122 then c.val - 32 else c.val := by
  by_cases h : 97 ≤ c.val ∧ c.val ≤ 122
  · rw [if_pos h, toupper, dif_pos h]
  · rw [if_neg h, toupper, dif_neg h]

theorem toupper_toupper (c : Byte) : toupper (toupper c) = toupper c := by
  apply Fin.ext
  have h1 := toupper_val c
  have h2 := toupper_val (toupper c)
  split_ifs at h1 h2 <;> omega

/-- A byte whose upper-case form is one of `A`, `T`, `G`, `C`. -/
theorem toupper_nucleotide_iff (c : Byte) :
    (toupper c = sA ∨ toupper c = sT ∨ toupper c = sG ∨ toupper c = sC) ↔
      (c.val = 65 ∨ c.val = 84 ∨ c.val = 71 ∨ c.val = 67 ∨
        c.val = 97 ∨ c.val = 116 ∨ c.val = 103 ∨ c.val = 99) := by
  have hv := toupper_val c
  have hA : (sA : Byte).val = 65 := rfl
  have hT : (sT : Byte).val = 84 := rfl
  have hG : (sG : Byte).val = 71 := rfl
  have hC : (sC : Byte).val = 67 := rfl
  simp only [Fin.ext_iff, hA, hT, hG, hC]
  split at hv <;> omega

theorem isValidDNALoop_iff (l : List Byte) :
    isValidDNALoop l = true ↔
      ∀ c, c ∈ l → (toupper c = sA ∨ toupper c = sT ∨ toupper c = sG ∨ toupper c = sC) := by
  induction l with
  | nil => simp [isValidDNALoop]
  | cons ch rest ih =>
    rw [isValidDNALoop]
    simp only [List.mem_cons, forall_eq_or_imp]
    by_cases h : toupper ch = sA ∨ toupper ch = sT ∨ toupper ch = sG ∨ toupper ch = sC
    · have h1 : ¬ (toupper ch ≠ sA ∧ toupper ch ≠ sT ∧ toupper ch ≠ sG ∧ toupper ch ≠ sC) := by
        tauto
      rw [if_neg h1, ih]
      exact ⟨fun h2 => ⟨h, h2⟩, fun h2 => h2.2⟩
    · have h1 : toupper ch ≠ sA ∧ toupper ch ≠ sT ∧ toupper ch ≠ sG ∧ toupper ch ≠ sC := by
        tauto
      rw [if_pos h1]
      constructor
      · intro h2; exact absurd h2 (by simp)
      · intro h2; exact absurd h2.1 h

theorem isValidDNA_iff (l : List Byte) :
    isValidDNA l = true ↔ l ≠ [] ∧
      ∀ c, c ∈ l → (toupper c = sA ∨ toupper c = sT ∨ toupper c = sG ∨ toupper c = sC) := by
  unfold isValidDNA
  cases l with
  | nil => simp
  | cons ch rest =>
    simp only [List.isEmpty_cons, Bool.false_eq_true, if_false, ne_eq, not_false_eq_true,
      true_and, reduceCtorEq]
    exact isValidDNALoop_iff (ch :: rest)

theorem lt_length_of_getElem?_eq_some {α : Type} (xs : List α) (k : Nat) (a : α)
    (h : xs[k]? = some a) : k < xs.length := by
  by_contra hc
  rw [List.getElem?_eq_none (by omega)] at h
  exact absurd h (by simp)

/-! ## The claims, continued -/

/-- C13. Fastest-of-all selection: for every triple of durations the selected
duration is the minimum of the three, and the selected name is `Naive` when
the naive duration is minimal, `KMP` when the KMP duration is minimal and the
naive one is not, `Boyer-Moore` when only the Boyer-Moore duration is
minimal: among equal minima the first in the order Naive, KMP, Boyer-Moore. -/
theorem fastest_of_all_is_minimum {α : Type} [LinearOrder α]
    (time_naive time_kmp time_boyer : α) :
    (fastestOfAll time_naive time_kmp time_boyer).2 = min time_naive (min time_kmp time_boyer) ∧
    ((fastestOfAll time_naive time_kmp time_boyer).1 = "Naive" ↔
      time_naive ≤ time_kmp ∧ time_naive ≤ time_boyer) ∧
    ((fastestOfAll time_naive time_kmp time_boyer).1 = "KMP" ↔
      time_kmp < time_naive ∧ time_kmp ≤ time_boyer) ∧
    ((fastestOfAll time_naive time_kmp time_boyer).1 = "Boyer-Moore" ↔
      time_boyer < time_naive ∧ time_boyer < time_kmp) := by
  have e1 : ("KMP" : String) ≠ "Naive" := by decide
  have e2 : ("Boyer-Moore" : String) ≠ "Naive" := by decide
  have e3 : ("Boyer-Moore" : String) ≠ "KMP" := by decide
  by_cases h1 : time_kmp < time_naive
  · by_cases h2 : time_boyer < time_kmp
    · have hval : fastestOfAll time_naive time_kmp time_boyer = ("Boyer-Moore", time_boyer) := by
        simp [fastestOfAll, h1, h2]
      rw [hval]
      refine ⟨?_, ?_, ?_, ?_⟩
      · show time_boyer = _
        rw [min_eq_right (le_of_lt h2), min_eq_right (le_of_lt (lt_trans h2 h1))]
      · exact ⟨fun h => absurd h e2, fun h => absurd h1 (not_lt.mpr h.1)⟩
      · exact ⟨fun h => absurd h e3, fun h => absurd h2 (not_lt.mpr h.2)⟩
      · exact ⟨fun _ => ⟨lt_trans h2 h1, h2⟩, fun _ => rfl⟩
    · have hval : fastestOfAll time_naive time_kmp time_boyer = ("KMP", time_kmp) := by
        simp [fastestOfAll, h1, h2]
      rw [hval]
      refine ⟨?_, ?_, ?_, ?_⟩
      · show time_kmp = _
        rw [min_eq_left (not_lt.mp h2), min_eq_right (le_of_lt h1)]
      · exact ⟨fun h => absurd h e1, fun h => absurd h1 (not_lt.mpr h.1)⟩
      · exact ⟨fun _ => ⟨h1, not_lt.mp h2⟩, fun _ => rfl⟩
      · exact ⟨fun h => absurd h.symm e3, fun h => absurd h.2 h2⟩
  · by_cases h2 : time_boyer < time_naive
    · have hval : fastestOfAll time_naive time_kmp time_boyer = ("Boyer-Moore", time_boyer) := by
        simp [fastestOfAll, h1, h2]
      rw [hval]
      have h3 : time_boyer < time_kmp := lt_of_lt_of_le h2 (not_lt.mp h1)
      refine ⟨?_, ?_, ?_, ?_⟩
      · show time_boyer = _
        rw [min_eq_right (le_of_lt h3), min_eq_right (le_of_lt h2)]
      · exact ⟨fun h => absurd h e2, fun h => absurd h2 (not_lt.mpr h.2)⟩
      · exact ⟨fun h => absurd h e3, fun h => absurd h.1 h1⟩
      · exact ⟨fun _ => ⟨h2, h3⟩, fun _ => rfl⟩
    · have hval : fastestOfAll time_naive time_kmp time_boyer = ("Naive", time_naive) := by
        simp [fastestOfAll, h1, h2]
      rw [hval]
      refine ⟨?_, ?_, ?_, ?_⟩
      · show time_naive = _
        rw [min_eq_left (le_min (not_lt.mp h1) (not_lt.mp h2))]
      · exact ⟨fun _ => ⟨not_lt.mp h1, not_lt.mp h2⟩, fun _ => rfl⟩
      · exact ⟨fun h => absurd h.symm e1, fun h => absurd h.1 h1⟩
      · exact ⟨fun h => absurd h.symm e2, fun h => absurd h.1 h2⟩

/-- C14. Input contract of the CLI layer: for every input string `s`, if
`isValidDNA(toUpperCase(s))` is true then `toUpperCase(s)` is non-empty and
each of its characters is one of `A`, `T`, `G`, `C`; `isValidDNA` is false on
the empty string and on every string holding a character that is none of
`A`, `T`, `G`, `C`, `a`, `t`, `g`, `c`. -/
theorem input_contract (s : List Byte) :
    (isValidDNA (toUpperCase s) = true →
      toUpperCase s ≠ [] ∧
        ∀ c, c ∈ toUpperCase s → (c = sA ∨ c = sT ∨ c = sG ∨ c = sC)) ∧
    isValidDNA [] = false ∧
    ((∃ c, c ∈ s ∧ c.val ≠ 65 ∧ c.val ≠ 84 ∧ c.val ≠ 71 ∧ c.val ≠ 67 ∧
        c.val ≠ 97 ∧ c.val ≠ 116 ∧ c.val ≠ 103 ∧ c.val ≠ 99) →
      isValidDNA s = false) := by
  refine ⟨?_, rfl, ?_⟩
  · intro h
    rw [isValidDNA_iff] at h
    refine ⟨h.1, ?_⟩
    intro c hc
    have h2 := h.2 c hc
    unfold toUpperCase at hc
    rw [List.mem_map] at hc
    obtain ⟨c0, _, rfl⟩ := hc
    rw [toupper_toupper] at h2
    exact h2
  · rintro ⟨c, hc, hne⟩
    cases hv : isValidDNA s with
    | false => rfl
    | true =>
      rw [isValidDNA_iff] at hv
      have := (toupper_nucleotide_iff c).mp (hv.2 c hc)
      omega

/-- Witness of C14 on the input `atgc`: it is accepted after `toUpperCase`,
which yields `ATGC`. -/
theorem input_contract_witness :
    isValidDNA (toUpperCase [97, 116, 103, 99]) = true ∧
    toUpperCase [97, 116, 103, 99] = [sA, sT, sG, sC] ∧
    toUpperCase [97, 116, 103, 99] ≠ [] ∧
    ∀ c, c ∈ toUpperCase [97, 116, 103, 99] → (c = sA ∨ c = sT ∨ c = sG ∨ c = sC) :=
  ⟨by decide, by decide, (input_contract [97, 116, 103, 99]).1 (by decide)⟩

/-- C16. Bad-character table holds rightmost positions: for every pattern of
length `m` and every byte `c`, after `badCharHeuristic(pattern, m, table)` the
entry `table[c]` is the largest index `k < m` with `pattern[k] = c` if `c`
occurs in the pattern and `-1` if it does not; so `-1 ≤ table[c] ≤ m - 1`. -/
theorem badchar_table_rightmost (pattern : List Byte) :
    ∃ table, badCharHeuristic pattern (pattern.length : Int) = .done table ∧
      table.length = NO_OF_CHARS ∧
      ∀ c : Byte, ∃ v : Int, table[c.val]? = some v ∧ -1 ≤ v ∧
        v ≤ (pattern.length : Int) - 1 ∧
        ((∃ k : Nat, pattern[k]? = some c) →
          ∃ kmax : Nat, v = (kmax : Int) ∧ kmax < pattern.length ∧ pattern[kmax]? = some c ∧
            ∀ k : Nat, pattern[k]? = some c → k ≤ kmax) ∧
        ((∀ k : Nat, pattern[k]? ≠ some c) → v = -1) := by
  obtain ⟨table, htab, hlen, hall⟩ := badCharHeuristic_spec pattern
  refine ⟨table, htab, hlen, ?_⟩
  intro c
  obtain ⟨v, hv, hlo, hhi, hat, hmax⟩ := hall c
  refine ⟨v, hv, hlo, by omega, ?_, ?_⟩
  · rintro ⟨k, hk⟩
    have hkm := lt_length_of_getElem?_eq_some pattern k c hk
    have hkv := hmax k hkm hk
    have hv0 : 0 ≤ v := by omega
    refine ⟨v.toNat, by omega, by omega, hat hv0, ?_⟩
    intro k1 hk1
    have := hmax k1 (lt_length_of_getElem?_eq_some pattern k1 c hk1) hk1
    omega
  · intro hnone
    by_contra hne
    exact hnone v.toNat (hat (by omega))

/-- C20, the defect: on the sequence of 46341 symbols `A` and the pattern of
46341 symbols `A` the cost handed to the printer by `naive` and by `boyer` is
`-2147479015` in `int` arithmetic, while `n * m` is `2147488281`. -/
theorem theoretical_cost_overflow :
    naiveCost (List.replicate 46341 sA) (List.replicate 46341 sA) = -2147479015 ∧
    boyerCost (List.replicate 46341 sA) (List.replicate 46341 sA) = -2147479015 ∧
    ((List.replicate 46341 sA).length : Int) * ((List.replicate 46341 sA).length : Int) =
      2147488281 := by
  simp only [naiveCost, boyerCost, wrapInt32, List.length_replicate]
  refine ⟨by decide, by decide, by decide⟩

/-- The cost is the mathematical value whenever that value fits an `int`. -/
theorem cost_of_range (sequence pattern : List Byte)
    (h : (sequence.length : Int) * (pattern.length : Int) < 2147483648) :
    naiveCost sequence pattern = (sequence.length : Int) * (pattern.length : Int) ∧
    boyerCost sequence pattern = (sequence.length : Int) * (pattern.length : Int) := by
  have h0 : (0 : Int) ≤ (sequence.length : Int) * (pattern.length : Int) :=
    mul_nonneg (by omega) (by omega)
  unfold naiveCost boyerCost
  exact ⟨wrapInt32_of_range _ (by omega) h, wrapInt32_of_range _ (by omega) h⟩

/-! ## Loop bodies: the scans pass by pass -/

/-- A checked read fails exactly when the index is outside `0 .. size - 1`. -/
theorem getAt_eq_none_iff {α : Type} (xs : List α) (i : Int) :
    getAt xs i = none ↔ (i < 0 ∨ (xs.length : Int) ≤ i) := by
  unfold getAt
  by_cases h : 0 ≤ i
  · rw [if_pos h, List.getElem?_eq_none_iff]
    omega
  · rw [if_neg h]
    simp only [true_iff]
    omega

/-- The loop of `kmp` executes `kmpStep` as its body. -/
theorem kmpLoop_succ (sequence pattern : List Byte) (n m : Int) (lps : List Int)
    (fuel : Nat) (i j : Int) (r : MatchResult) :
    kmpLoop sequence pattern n m lps (fuel + 1) i j r =
      if i < n then
        match kmpStep sequence pattern n m lps i j r with
        | .done (i1, j1, r1) => kmpLoop sequence pattern n m lps fuel i1 j1 r1
        | .fault => .fault
        | .timeout => .timeout
      else .done r := by
  rw [kmpLoop]
  unfold kmpStep
  split
  · split <;> (try rfl)
    simp only []
    repeat (first | rfl | split)
  · rfl

/-- The loop of `boyer` executes `boyerStep` as its body. -/
theorem boyerLoop_succ (sequence pattern : List Byte) (n m : Int) (badchar : List Int)
    (fuel : Nat) (s : Int) (r : MatchResult) :
    boyerLoop sequence pattern n m badchar (fuel + 1) s r =
      if s ≤ n - m then
        match boyerStep sequence pattern n m badchar s r with
        | .done (s1, r1) => boyerLoop sequence pattern n m badchar fuel s1 r1
        | .fault => .fault
        | .timeout => .timeout
      else .done r := by
  rw [boyerLoop]
  unfold boyerStep
  split
  · repeat (first | rfl | split)
  · rfl

end DnaPatternMatching
